import Mathlib

/-!
Verification development for two editor side-panel features:
the "harpoon" quick-jump mark store (crates/workspace/src/harpoon.rs) and the
"backlinks" markdown link scanner (crates/backlinks_panel/src/backlinks_panel.rs).

Strings are modelled as lists of characters and filesystem paths as lists of
path components (assumed to be normal components, i.e. not `.`, `..` or empty,
which is what the features operate on).  The host editor's reactive context
(`cx`, event emission, `notify`) performs no state change on the modelled data
and is dropped from the embedding; async tasks are modelled as explicit pending
fields.  All functions are translated from the Rust source.
-/

/-- A Rust `String` / `str`, modelled as its list of characters. -/
abbrev Str := List Char

/-- The greatest index of `l` holding character `c` (used to model Rust's
split of a file name at its final dot). -/
def lastIdxOf (c : Char) : Str → Option Nat
  | [] => none
  | a :: l =>
    match lastIdxOf c l with
    | some i => some (i + 1)
    | none => if a = c then some 0 else none

/-- Rust `Path::file_stem` applied to a (normal) file-name component: the whole
name when it has no dot, or only a leading dot; otherwise the part before the
final dot. -/
def stemOfName (f : Str) : Str :=
  match lastIdxOf '.' f with
  | none => f
  | some 0 => f
  | some i => f.take i

/-- Rust `Path::extension` applied to a (normal) file-name component: the part
after the final dot, `none` when there is no dot or only a leading dot. -/
def extOfName (f : Str) : Option Str :=
  match lastIdxOf '.' f with
  | none => none
  | some 0 => none
  | some i => some (f.drop (i + 1))

/-- A filesystem path, as its list of (normal) components. -/
abbrev FsPath := List Str

/-- Rust `Path::file_name`: the final component. -/
def pathFileName (p : FsPath) : Option Str := p.getLast?

/-- Rust `Path::file_stem`: the stem of the final component. -/
def pathFileStem (p : FsPath) : Option Str := (pathFileName p).map stemOfName

/-- Rust `Path::extension`: the extension of the final component. -/
def pathExt (p : FsPath) : Option Str := (pathFileName p).bind extOfName

/-- `project::ProjectPath`: a worktree id together with a worktree-relative
path. -/
structure ProjectPath where
  worktreeId : Nat
  path : FsPath
  deriving DecidableEq

/-- `Iterator::position` on a list: the index of the first element satisfying
the predicate. -/
def position (p : α → Bool) : List α → Option Nat
  | [] => none
  | a :: l => if p a then some 0 else (position p l).map (· + 1)

/-- `HarpoonMark` from harpoon.rs. -/
structure HarpoonMark where
  project_path : ProjectPath
  display_name : Str
  deriving DecidableEq

/-- `MAX_HARPOON_SLOTS` from harpoon.rs. -/
def MAX_HARPOON_SLOTS : Nat := 9

/-- `HarpoonSettings` from harpoon.rs. -/
structure HarpoonSettings where
  max_slots : Option Nat
  persist_marks : Option Bool
  deriving DecidableEq

/-- `HarpoonSettings::default`. -/
def HarpoonSettings.default : HarpoonSettings :=
  { max_slots := some MAX_HARPOON_SLOTS, persist_marks := some true }

/-- `HarpoonStore` from harpoon.rs.  The `project : WeakEntity<Project>` handle
is an opaque reference into the host editor and never read by the store's
operations, so it is dropped from the model. -/
structure HarpoonStore where
  marks : List (Option HarpoonMark)
  settings : HarpoonSettings
  deriving DecidableEq

/-- `HarpoonStore::new`. -/
def HarpoonStore.new : HarpoonStore :=
  let settings := HarpoonSettings.default
  let max_slots := settings.max_slots.getD MAX_HARPOON_SLOTS
  { marks := List.replicate max_slots none, settings := settings }

/-- `HarpoonStore::mark_current_file`.  The `cx` argument only emits a
`MarksChanged` event and calls `notify`, neither of which changes the store.
The Rust function's `Result` is preserved to record that it only ever returns
`Ok`. -/
def HarpoonStore.mark_current_file (s : HarpoonStore) (project_path : ProjectPath) :
    Except String Nat × HarpoonStore :=
  let slot := (position Option.isNone s.marks).getD 0
  let display_name := (pathFileName project_path.path).getD "Unknown".data
  let mark : HarpoonMark := { project_path := project_path, display_name := display_name }
  (Except.ok slot, { s with marks := s.marks.set slot (some mark) })

/-- `HarpoonStore::get_mark`. -/
def HarpoonStore.get_mark (s : HarpoonStore) (slot : Nat) : Option HarpoonMark :=
  if h : slot < s.marks.length then s.marks.get ⟨slot, h⟩ else none

/-- `HarpoonStore::remove_mark` (again, `cx` only emits events). -/
def HarpoonStore.remove_mark (s : HarpoonStore) (slot : Nat) : Bool × HarpoonStore :=
  if h : slot < s.marks.length then
    if (s.marks.get ⟨slot, h⟩).isSome then
      (true, { s with marks := s.marks.set slot none })
    else (false, s)
  else (false, s)

/-- `HarpoonStore::clear_all`: `self.marks.fill(None)`. -/
def HarpoonStore.clear_all (s : HarpoonStore) : HarpoonStore :=
  { s with marks := s.marks.map (fun _ => none) }

/-- `HarpoonStore::get_all_marks`. -/
def HarpoonStore.get_all_marks (s : HarpoonStore) : List (Nat × HarpoonMark) :=
  s.marks.enum.filterMap (fun q => q.2.map (fun m => (q.1, m)))

/-- `HarpoonStore::is_marked`. -/
def HarpoonStore.is_marked (s : HarpoonStore) (project_path : ProjectPath) : Option Nat :=
  position
    (fun mark => (mark.map (fun m => decide (m.project_path = project_path))).getD false)
    s.marks

/-- The project path stored in one (optional) slot. -/
def markPath : Option HarpoonMark → Option ProjectPath :=
  Option.map HarpoonMark.project_path

/-- "No two slots hold the same project path". -/
def NoDupMarks (s : HarpoonStore) : Prop :=
  ∀ i j p, markPath (s.get_mark i) = some p → markPath (s.get_mark j) = some p → i = j

section PositionLemmas

variable {α : Type _} {p : α → Bool}

theorem position_eq_some {l : List α} {i : Nat} (h : position p l = some i) :
    ∃ a, l[i]? = some a ∧ p a = true ∧ ∀ j, j < i → ∀ b, l[j]? = some b → p b = false := by
  induction l generalizing i with
  | nil => simp [position] at h
  | cons x xs ih =>
    by_cases hx : p x
    · simp [position, hx] at h
      subst h
      exact ⟨x, by simp, hx, by omega⟩
    · simp [position, hx] at h
      obtain ⟨i', hi', rfl⟩ := h
      obtain ⟨a, ha, hpa, hmin⟩ := ih hi'
      refine ⟨a, by simpa using ha, hpa, ?_⟩
      intro j hj b hb
      cases j with
      | zero =>
        simp at hb
        subst hb
        simpa using hx
      | succ j' =>
        simp at hb
        exact hmin j' (by omega) b hb

theorem position_eq_none_iff {l : List α} :
    position p l = none ↔ ∀ a ∈ l, p a = false := by
  induction l with
  | nil => simp [position]
  | cons x xs ih =>
    by_cases hx : p x
    · simp [position, hx]
    · simp [position, hx, ih]

theorem position_first {l : List α} {i : Nat} {a : α} (ha : l[i]? = some a)
    (hpa : p a = true) (hmin : ∀ j, j < i → ∀ b, l[j]? = some b → p b = false) :
    position p l = some i := by
  induction l generalizing i with
  | nil => simp at ha
  | cons x xs ih =>
    cases i with
    | zero =>
      simp at ha
      subst ha
      simp [position, hpa]
    | succ i' =>
      have hx : p x = false := hmin 0 (by omega) x (by simp)
      simp at ha
      have : position p xs = some i' :=
        ih ha (fun j hj b hb => hmin (j + 1) (by omega) b (by simpa using hb))
      simp [position, hx, this]

end PositionLemmas

/-- Slot lists whose occupied slots hold pairwise distinct project paths. -/
def PairwiseDistinctPaths (marks : List (Option HarpoonMark)) : Prop :=
  marks.Pairwise (fun a b => markPath a = none ∨ markPath a ≠ markPath b)

theorem get_mark_eq_join (s : HarpoonStore) (i : Nat) :
    s.get_mark i = (s.marks[i]?).join := by
  unfold HarpoonStore.get_mark
  split
  · next h => rw [List.getElem?_eq_getElem h]; simp [List.get_eq_getElem]
  · next h => rw [List.getElem?_eq_none (by omega)]; rfl

theorem pairwise_set_of_rel {α : Type _} {R : α → α → Prop} {l : List α} {a : α}
    (h : l.Pairwise R) (ha : ∀ b ∈ l, R a b ∧ R b a) (n : Nat) :
    (l.set n a).Pairwise R := by
  induction l generalizing n with
  | nil => simp
  | cons x xs ih =>
    cases n with
    | zero =>
      simp only [List.set_cons_zero]
      exact List.Pairwise.cons (fun b hb => (ha b (List.mem_cons_of_mem x hb)).1)
        (List.Pairwise.sublist (List.sublist_cons_self x xs) h)
    | succ n' =>
      simp only [List.set_cons_succ]
      rcases h with _ | ⟨hx, hxs⟩
      refine List.Pairwise.cons ?_ (ih hxs (fun b hb => ha b (List.mem_cons_of_mem x hb)) n')
      intro b hb
      rcases List.mem_or_eq_of_mem_set hb with hb' | rfl
      · exact hx b hb'
      · exact (ha x (List.mem_cons_self x xs)).2

theorem noDupMarks_iff_pairwise (s : HarpoonStore) :
    NoDupMarks s ↔ PairwiseDistinctPaths s.marks := by
  rw [PairwiseDistinctPaths, List.pairwise_iff_getElem]
  constructor
  · intro hnd i j hi hj hij
    by_cases hnone : markPath s.marks[i] = none
    · exact Or.inl hnone
    · refine Or.inr (fun heq => ?_)
      obtain ⟨q, hq⟩ := Option.ne_none_iff_exists'.mp hnone
      have h1 : markPath (s.get_mark i) = some q := by
        rw [get_mark_eq_join, List.getElem?_eq_getElem hi]; simpa using hq
      have h2 : markPath (s.get_mark j) = some q := by
        rw [get_mark_eq_join, List.getElem?_eq_getElem hj]
        simpa using heq ▸ hq
      exact absurd (hnd i j q h1 h2) (by omega)
  · intro hpw i j q h1 h2
    rw [get_mark_eq_join] at h1 h2
    by_contra hne
    have hi : i < s.marks.length := by
      by_contra hge
      rw [List.getElem?_eq_none (by omega)] at h1
      simp [markPath] at h1
    have hj : j < s.marks.length := by
      by_contra hge
      rw [List.getElem?_eq_none (by omega)] at h2
      simp [markPath] at h2
    rw [List.getElem?_eq_getElem hi] at h1
    rw [List.getElem?_eq_getElem hj] at h2
    simp only [Option.join, Option.some_bind, id] at h1 h2
    rcases Nat.lt_or_ge i j with hlt | hge
    · rcases hpw i j hi hj hlt with hn | hne'
      · rw [hn] at h1; exact absurd h1 (by simp)
      · exact hne' (h1.trans h2.symm)
    · have hlt : j < i := by omega
      rcases hpw j i hj hi hlt with hn | hne'
      · rw [hn] at h2; exact absurd h2 (by simp)
      · exact hne' (h2.trans h1.symm)

theorem noDup_of_all_none (s : HarpoonStore) (h : ∀ x ∈ s.marks, x = none) :
    NoDupMarks s := by
  intro i j q h1 h2
  rw [get_mark_eq_join] at h1
  cases hx : s.marks[i]? with
  | none => rw [hx] at h1; simp [markPath] at h1
  | some x =>
    obtain ⟨hi, rfl⟩ := List.getElem?_eq_some.mp hx
    have := h _ (List.getElem_mem hi)
    rw [this] at hx
    rw [hx] at h1
    simp [markPath] at h1

/-- Concrete project path `a.md` (worktree 0), used in witnesses. -/
def samplePathA : ProjectPath := ⟨0, ["a.md".data]⟩

/-- Concrete project path `b.md` (worktree 0), used in witnesses. -/
def samplePathB : ProjectPath := ⟨0, ["b.md".data]⟩

/-- A store reached from `new` by marking `b.md`, marking `a.md`, then removing
slot 0: its slot 1 holds `a.md` while slot 0 is empty. -/
def dupStore : HarpoonStore :=
  ((((HarpoonStore.new.mark_current_file samplePathB).2.mark_current_file
      samplePathA).2).remove_mark 0).2

/-- C1, counterexample.  `mark_current_file` does not perform duplicate
detection: starting from the duplicate-free (and reachable) store `dupStore`,
whose slot 1 already holds `a.md`, marking `a.md` again writes it into the
first empty slot 0, after which two slots hold the same project path. -/
theorem harpoon_mark_duplicates_counterexample :
    NoDupMarks dupStore ∧
    markPath ((dupStore.mark_current_file samplePathA).2.get_mark 0) = some samplePathA ∧
    markPath ((dupStore.mark_current_file samplePathA).2.get_mark 1) = some samplePathA ∧
    ¬ NoDupMarks (dupStore.mark_current_file samplePathA).2 := by
  refine ⟨(noDupMarks_iff_pairwise _).mpr (by unfold PairwiseDistinctPaths; decide),
    by decide, by decide, ?_⟩
  intro h
  exact absurd (h 0 1 samplePathA (by decide) (by decide)) (by decide)

/-- C1, amended.  "No two slots hold the same project path" holds for a new
store and is preserved by `remove_mark` and `clear_all`; `mark_current_file`
preserves it only when the marked path is not already in some slot
(`is_marked` returns `None` for it) — marking an already-marked path can
leave two slots holding that path. -/
theorem harpoon_no_dup_invariant_amended :
    NoDupMarks HarpoonStore.new ∧
    (∀ (s : HarpoonStore) (slot : Nat), NoDupMarks s → NoDupMarks (s.remove_mark slot).2) ∧
    (∀ (s : HarpoonStore), NoDupMarks s → NoDupMarks s.clear_all) ∧
    (∀ (s : HarpoonStore) (q : ProjectPath),
      NoDupMarks s → s.is_marked q = none → NoDupMarks (s.mark_current_file q).2) := by
  refine ⟨?_, ?_, ?_, ?_⟩
  · exact noDup_of_all_none _ (fun x hx => List.eq_of_mem_replicate hx)
  · intro s slot h
    unfold HarpoonStore.remove_mark
    split
    · split
      · refine (noDupMarks_iff_pairwise _).mpr ?_
        refine pairwise_set_of_rel ((noDupMarks_iff_pairwise s).mp h) ?_ slot
        intro b _
        constructor
        · exact Or.inl rfl
        · by_cases hb : markPath b = none
          · exact Or.inl hb
          · exact Or.inr hb
      · exact h
    · exact h
  · intro s h
    refine noDup_of_all_none _ ?_
    intro x hx
    rcases List.mem_map.mp hx with ⟨y, _, rfl⟩
    rfl
  · intro s q h hnone
    refine (noDupMarks_iff_pairwise _).mpr ?_
    have hall : ∀ b ∈ s.marks, markPath b ≠ some q := by
      intro b hb
      have := position_eq_none_iff.mp hnone b hb
      cases b with
      | none => simp [markPath]
      | some m =>
        simp at this
        simp [markPath, this]
    refine pairwise_set_of_rel ((noDupMarks_iff_pairwise s).mp h) ?_ _
    intro b hb
    constructor
    · exact Or.inr (fun heq => hall b hb heq.symm)
    · by_cases hbn : markPath b = none
      · exact Or.inl hbn
      · exact Or.inr (fun heq => hall b hb heq)

/-- C1, witness for the amended theorem: marking a fresh path in a
duplicate-free concrete store keeps the store duplicate-free. -/
theorem harpoon_no_dup_invariant_amended_witness :
    NoDupMarks (HarpoonStore.new.mark_current_file samplePathA).2 :=
  harpoon_no_dup_invariant_amended.2.2.2 HarpoonStore.new samplePathA
    harpoon_no_dup_invariant_amended.1 (by decide)

/-- C3.  `mark_current_file` writes the new mark into the lowest-index empty
slot and returns `Ok` of that index; with no empty slot it overwrites slot 0
and returns `Ok(0)` (every store built by this code has nine slots, so the
non-empty hypothesis of the full-store case always holds); it never returns an
error. -/
theorem mark_current_file_slot_choice :
    (∀ (s : HarpoonStore) (q : ProjectPath) (i : Nat),
      s.marks[i]? = some none →
      (∀ j, j < i → s.marks[j]? ≠ some none) →
      (s.mark_current_file q).1 = Except.ok i ∧
      (s.mark_current_file q).2.marks =
        s.marks.set i (some ⟨q, (pathFileName q.path).getD "Unknown".data⟩)) ∧
    (∀ (s : HarpoonStore) (q : ProjectPath),
      s.marks ≠ [] → (∀ b ∈ s.marks, b ≠ none) →
      (s.mark_current_file q).1 = Except.ok 0 ∧
      (s.mark_current_file q).2.marks =
        s.marks.set 0 (some ⟨q, (pathFileName q.path).getD "Unknown".data⟩)) ∧
    (∀ (s : HarpoonStore) (q : ProjectPath), ∃ k, (s.mark_current_file q).1 = Except.ok k) := by
  refine ⟨?_, ?_, ?_⟩
  · intro s q i hi hmin
    have hpos : position Option.isNone s.marks = some i := by
      refine position_first hi rfl ?_
      intro j hj b hb
      cases b with
      | none => exact absurd hb (hmin j hj)
      | some m => rfl
    constructor
    · simp [HarpoonStore.mark_current_file, hpos]
    · simp [HarpoonStore.mark_current_file, hpos]
  · intro s q _ hfull
    have hpos : position Option.isNone s.marks = none := by
      refine position_eq_none_iff.mpr ?_
      intro b hb
      cases b with
      | none => exact absurd rfl (hfull none hb)
      | some m => rfl
    constructor
    · simp [HarpoonStore.mark_current_file, hpos]
    · simp [HarpoonStore.mark_current_file, hpos]
  · intro s q
    exact ⟨_, rfl⟩

/-- C3, witness: in a concrete store whose slot 0 is full and slot 1 empty,
marking `b.md` lands in slot 1. -/
theorem mark_current_file_slot_choice_witness :
    ((HarpoonStore.new.mark_current_file samplePathA).2.mark_current_file samplePathB).1 =
      Except.ok 1 ∧
    ((HarpoonStore.new.mark_current_file samplePathA).2.mark_current_file samplePathB).2.marks =
      (HarpoonStore.new.mark_current_file samplePathA).2.marks.set 1
        (some ⟨samplePathB, (pathFileName samplePathB.path).getD "Unknown".data⟩) :=
  mark_current_file_slot_choice.1 (HarpoonStore.new.mark_current_file samplePathA).2
    samplePathB 1 (by decide)
    (by intro j hj; interval_cases j; decide)

/-- C4.  A new store has exactly nine slots, all empty; `mark_current_file`,
`remove_mark` and `clear_all` keep the number of slots unchanged (hence at
nine); and `get_mark` returns `None` for every slot index at or beyond the
slot count (so, for the nine-slot stores this code builds, for every index
`≥ 9`). -/
theorem harpoon_slot_count_spec :
    HarpoonStore.new.marks.length = 9 ∧
    (∀ b ∈ HarpoonStore.new.marks, b = none) ∧
    (∀ (s : HarpoonStore) (q : ProjectPath),
      (s.mark_current_file q).2.marks.length = s.marks.length) ∧
    (∀ (s : HarpoonStore) (slot : Nat),
      (s.remove_mark slot).2.marks.length = s.marks.length) ∧
    (∀ (s : HarpoonStore), s.clear_all.marks.length = s.marks.length) ∧
    (∀ (s : HarpoonStore) (slot : Nat), s.marks.length ≤ slot → s.get_mark slot = none) := by
  refine ⟨by decide, fun b hb => List.eq_of_mem_replicate hb, ?_, ?_, ?_, ?_⟩
  · intro s q
    simp [HarpoonStore.mark_current_file]
  · intro s slot
    unfold HarpoonStore.remove_mark
    split
    · split <;> simp
    · simp
  · intro s
    simp [HarpoonStore.clear_all]
  · intro s slot hslot
    unfold HarpoonStore.get_mark
    split
    · omega
    · rfl

/-- C4, witness: `get_mark` on a new store returns `None` at slot 9. -/
theorem harpoon_slot_count_spec_witness :
    HarpoonStore.new.get_mark 9 = none :=
  harpoon_slot_count_spec.2.2.2.2.2 HarpoonStore.new 9 (by decide)

/-- C6.  `is_marked p` returns the lowest slot index whose mark has project
path `p` (`Some i` exactly when slot `i` holds such a mark and no lower slot
does), and `None` exactly when no slot holds a mark with path `p`.  In the
source it takes `&self`, so it cannot modify the store; the model is a pure
function of the store. -/
theorem is_marked_spec :
    (∀ (s : HarpoonStore) (q : ProjectPath) (i : Nat),
      s.is_marked q = some i →
      (∃ m, s.marks[i]? = some (some m) ∧ m.project_path = q) ∧
      ∀ j, j < i → ∀ b, s.marks[j]? = some b → markPath b ≠ some q) ∧
    (∀ (s : HarpoonStore) (q : ProjectPath),
      s.is_marked q = none ↔ ∀ b ∈ s.marks, markPath b ≠ some q) := by
  constructor
  · intro s q i h
    obtain ⟨a, ha, hpa, hmin⟩ := position_eq_some h
    constructor
    · cases a with
      | none => simp at hpa
      | some m =>
        simp at hpa
        exact ⟨m, ha, hpa⟩
    · intro j hj b hb
      have := hmin j hj b hb
      cases b with
      | none => simp [markPath]
      | some m =>
        simp at this
        simp [markPath, this]
  · intro s q
    rw [HarpoonStore.is_marked, position_eq_none_iff]
    constructor
    · intro hall b hb
      have := hall b hb
      cases b with
      | none => simp [markPath]
      | some m =>
        simp at this
        simp [markPath, this]
    · intro hall b hb
      have := hall b hb
      cases b with
      | none => rfl
      | some m =>
        simp [markPath] at this
        simp [this]

/-- C6, witness: in a store holding `a.md` in slot 0 and `b.md` in slot 1,
`is_marked b.md` returns slot 1, which holds a `b.md` mark while slot 0 does
not. -/
theorem is_marked_spec_witness :
    (∃ m, ((HarpoonStore.new.mark_current_file samplePathA).2.mark_current_file
        samplePathB).2.marks[1]? = some (some m) ∧ m.project_path = samplePathB) ∧
    ∀ j, j < 1 → ∀ b,
      ((HarpoonStore.new.mark_current_file samplePathA).2.mark_current_file
        samplePathB).2.marks[j]? = some b → markPath b ≠ some samplePathB :=
  is_marked_spec.1 ((HarpoonStore.new.mark_current_file samplePathA).2.mark_current_file
    samplePathB).2 samplePathB 1 (by decide)

/-- C9.  `remove_mark slot` returns `true` exactly when `slot` is in range and
holds a mark, in which case that slot is emptied (the marks become the old
marks with slot `slot` set to `None`); when it returns `false` the store is
completely unchanged. -/
theorem remove_mark_spec :
    (∀ (s : HarpoonStore) (slot : Nat),
      (s.remove_mark slot).1 = true ↔
        slot < s.marks.length ∧ ∃ m, s.marks[slot]? = some (some m)) ∧
    (∀ (s : HarpoonStore) (slot : Nat),
      (s.remove_mark slot).1 = true →
      (s.remove_mark slot).2.marks = s.marks.set slot none) ∧
    (∀ (s : HarpoonStore) (slot : Nat),
      (s.remove_mark slot).1 = false → (s.remove_mark slot).2 = s) := by
  refine ⟨?_, ?_, ?_⟩
  · intro s slot
    unfold HarpoonStore.remove_mark
    split
    · next h =>
      rw [List.getElem?_eq_getElem h]
      split
      · next hsome =>
        simp only [List.get_eq_getElem] at hsome
        simp [h, Option.isSome_iff_exists.mp hsome]
      · next hnone =>
        simp only [List.get_eq_getElem] at hnone
        simp only [Option.isSome_iff_exists, Bool.eq_false_iff, ne_eq, not_exists] at hnone
        simp [hnone]
    · next h => simp [h]
  · intro s slot
    unfold HarpoonStore.remove_mark
    split
    · split
      · intro _; rfl
      · intro h; simp at h
    · intro h; simp at h
  · intro s slot
    unfold HarpoonStore.remove_mark
    split
    · split
      · intro h; simp at h
      · intro _; rfl
    · intro _; rfl

/-- C9, witness: removing slot 0 from a store holding `a.md` there returns
`true` and empties the slot; removing it again returns `false` and leaves the
store unchanged. -/
theorem remove_mark_spec_witness :
    ((HarpoonStore.new.mark_current_file samplePathA).2.remove_mark 0).2.marks =
      (HarpoonStore.new.mark_current_file samplePathA).2.marks.set 0 none ∧
    (((HarpoonStore.new.mark_current_file samplePathA).2.remove_mark 0).2.remove_mark 0).2 =
      ((HarpoonStore.new.mark_current_file samplePathA).2.remove_mark 0).2 :=
  ⟨remove_mark_spec.2.1 (HarpoonStore.new.mark_current_file samplePathA).2 0 (by decide),
   remove_mark_spec.2.2 ((HarpoonStore.new.mark_current_file samplePathA).2.remove_mark 0).2 0
     (by decide)⟩

/-- Split a list at the first occurrence of `c`: `some (before, after)` when
`c` occurs, `none` otherwise. -/
def splitUntil (c : Char) : Str → Option (Str × Str)
  | [] => none
  | a :: l =>
    if a = c then some ([], l)
    else (splitUntil c l).map (fun q => (a :: q.1, q.2))

/-- Matcher for the tail of the markdown-link regex after `](`:
accepts `u₁ ++ file_name ++ u₂ ++ ')' ++ _` with no `')'` in `u₁` or `u₂`
(the `[^)]*FN[^)]*\)` part of the pattern). -/
def scanU (file_name : Str) : Str → Bool
  | [] => false
  | a :: l =>
    (file_name.isPrefixOf (a :: l) && ((a :: l).drop file_name.length).contains ')') ||
    (decide (a ≠ ')') && scanU file_name l)

/-- Matcher for the part of the markdown-link regex after a `'['`:
a non-empty run without `']'`, then `](`, then `scanU` (the
`([^\]]+)\]\(...` part of the pattern). -/
def afterLB (file_name : Str) (l : Str) : Bool :=
  match splitUntil ']' l with
  | none => false
  | some (t, r) =>
    !t.isEmpty &&
      (match r with
       | '(' :: r' => scanU file_name r'
       | _ => false)

/-- `Regex::is_match` of the markdown-link pattern
`\[([^\]]+)\]\([^)]*FN[^)]*\)` built in `find_backlinks` (with `FN` the
escaped target file name): search every position for a `'['` opening a
match. -/
def mdScan (file_name : Str) : Str → Bool
  | [] => false
  | a :: l => (a = '[' && afterLB file_name l) || mdScan file_name l

/-- The literal string `[[stem]]`, i.e. the wiki-link pattern
`\[\[stem\]\]` of `find_backlinks` (the stem is regex-escaped in the source,
so the pattern matches exactly this literal as a substring). -/
def wikiLinkPattern (stem : Str) : Str := '[' :: '[' :: (stem ++ [']', ']'])

/-- The language of the markdown-link regex, written out: somewhere in the
line there is `[`, a non-empty text without `]`, then `](`, then the file
name surrounded by runs without `)`, then `)`. -/
def MdRegexMatch (file_name line : Str) : Prop :=
  ∃ a t u₁ u₂ b,
    line = a ++ '[' :: (t ++ ']' :: '(' :: (u₁ ++ file_name ++ u₂ ++ ')' :: b)) ∧
    t ≠ [] ∧ ']' ∉ t ∧ ')' ∉ u₁ ∧ ')' ∉ u₂

/-- A worktree entry (`worktree.entries(false, 0)` items): its
worktree-relative path and whether it is a file. -/
structure WorktreeEntry where
  path : FsPath
  is_file : Bool
  deriving DecidableEq

/-- A visible worktree: its id, absolute root path, and entries. -/
structure Worktree where
  wtId : Nat
  abs_path : FsPath
  entries : List WorktreeEntry
  deriving DecidableEq

/-- `BacklinkEntry` from backlinks_panel.rs. -/
structure BacklinkEntry where
  path : ProjectPath
  abs_path : FsPath
  display_name : Str
  worktree_id : Nat
  context : Str
  line_number : Nat
  deriving DecidableEq

/-- The markdown-file collection loop of `find_backlinks`: every file entry
of every visible worktree whose extension is `md`, absolutized against the
worktree root, excluding the target's absolute path. -/
def markdownFiles (worktrees : List Worktree) (target_abs_path : FsPath) :
    List (ProjectPath × FsPath) :=
  worktrees.flatMap (fun wt =>
    wt.entries.filterMap (fun e =>
      if e.is_file then
        match pathExt e.path with
        | some ext =>
          if ext = "md".data then
            let abs_path := wt.abs_path ++ e.path
            if abs_path ≠ target_abs_path then
              some (⟨wt.wtId, e.path⟩, abs_path)
            else none
          else none
        | none => none
      else none))

/-- Strip one trailing carriage return (the `\r\n` handling of
`str::lines`). -/
def stripCR (l : Str) : Str := if l.getLast? = some '\r' then l.dropLast else l

/-- Rust `str::lines`: split at `'\n'`, dropping a final empty piece (the
final line ending is optional), and strip a `'\r'` preceding each `'\n'`. -/
def rustLines (s : Str) : List Str :=
  let parts := s.splitOn '\n'
  if parts.getLast? = some [] then (parts.dropLast).map stripCR
  else ((parts.dropLast).map stripCR) ++ parts.getLast?.toList

/-- Rust `str::trim` (Unicode whitespace approximated by
`Char.isWhitespace`, which covers the whitespace occurring in text files). -/
def rustTrim (l : Str) : Str :=
  ((l.dropWhile Char.isWhitespace).reverse.dropWhile Char.isWhitespace).reverse

/-- The per-file scan loop of `find_backlinks`: for each line (by index) that
matches the wiki or markdown pattern, push a `BacklinkEntry`. -/
def scanFileLines (has_wiki has_md : Str → Bool) (project_path : ProjectPath)
    (abs_path : FsPath) (content : Str) : List BacklinkEntry :=
  (rustLines content).enum.filterMap (fun q =>
    if has_wiki q.2 || has_md q.2 then
      some { path := project_path, abs_path := abs_path,
             display_name := (pathFileStem project_path.path).getD [],
             worktree_id := project_path.worktreeId,
             context := rustTrim q.2, line_number := q.1 }
    else none)

/-- `wiki_link_pattern.is_match(line)`: the escaped-literal pattern
`\[\[stem\]\]` matches iff `[[stem]]` occurs as a substring. -/
def hasWikiB (stem : Str) : Str → Bool :=
  fun line => decide (wikiLinkPattern stem <:+: line)

/-- `md_link_pattern.is_match(line)`, built from the target's file name
(`mdScan`); the `None` arm is the source's never-matching fallback pattern. -/
def hasMdB (target_file : FsPath) : Str → Bool :=
  fun line =>
    match pathFileName target_file with
    | some file_name => mdScan file_name line
    | none => false

/-- One iteration of the scan loop: load the file (`if let Ok(content)`),
scan its lines, and contribute nothing when the load fails. -/
def loadChunk (has_wiki has_md : Str → Bool) (load : FsPath → Option Str)
    (q : ProjectPath × FsPath) : List BacklinkEntry :=
  match load q.2 with
  | some content => scanFileLines has_wiki has_md q.1 q.2 content
  | none => []

/-- `BacklinksPanel::find_backlinks`.  Inputs:
`worktrees` are the project's visible worktrees, `load` is the `Fs::load`
oracle (`none` models a load error, which the source swallows with
`if let Ok`), and `target_abs_opt` is the result of the host's
`absolutize` call (code outside this repository fragment), defaulted to the
relative path exactly as in the source's `unwrap_or_else`.  The `(?!.*)`
fallback regex for a target without a file name is dead code (a path with a
stem has a file name) and is modelled as a never-matching predicate.  The
two `?`-propagated error sources (entity upgrade and regex compilation)
cannot fire on these inputs, so every path returns `Except.ok`, matching the
source's `Ok(...)` returns. -/
def find_backlinks (worktrees : List Worktree) (load : FsPath → Option Str)
    (target_path : ProjectPath) (target_abs_opt : Option FsPath) :
    Except String (List BacklinkEntry) :=
  let target_file_name := (pathFileStem target_path.path).getD []
  if target_file_name = [] then Except.ok []
  else
    let target_abs_path := target_abs_opt.getD target_path.path
    let markdown_files := markdownFiles worktrees target_abs_path
    Except.ok (markdown_files.flatMap
      (loadChunk (hasWikiB target_file_name) (hasMdB target_path.path) load))

/-- The `BacklinksPanel` state acted on by `update_backlinks`: its entries,
its current file path, and the pending scan task (`update_task`), modelled
as the path the spawned task will scan. -/
structure PanelState where
  entries : List BacklinkEntry
  current_file_path : Option ProjectPath
  pending_update : Option ProjectPath
  deriving DecidableEq

/-- `BacklinksPanel::update_backlinks`: early-return when the file path is
unchanged; otherwise store the new path and either spawn the scan task (the
entries are only replaced later, when the task completes) or, for `None`,
clear the entries. -/
def update_backlinks (s : PanelState) (file_path : Option ProjectPath) : PanelState :=
  if s.current_file_path = file_path then s
  else
    match file_path with
    | some fp => { s with current_file_path := some fp, pending_update := some fp }
    | none => { s with current_file_path := none, entries := [] }

theorem splitUntil_eq_some {c : Char} {l t r : Str} :
    splitUntil c l = some (t, r) ↔ l = t ++ c :: r ∧ c ∉ t := by
  induction l generalizing t with
  | nil =>
    simp only [splitUntil]
    constructor
    · intro h; simp at h
    · rintro ⟨h, -⟩; exact absurd h (by simp)
  | cons a l ih =>
    by_cases hac : a = c
    · subst hac
      simp only [splitUntil, if_pos rfl]
      constructor
      · intro h
        simp at h
        obtain ⟨rfl, rfl⟩ := h
        simp
      · rintro ⟨heq, hmem⟩
        cases t with
        | nil => simp at heq; simp [heq]
        | cons x t' =>
          simp at heq
          obtain ⟨rfl, -⟩ := heq
          simp at hmem
    · simp only [splitUntil, if_neg hac, Option.map_eq_some']
      constructor
      · rintro ⟨⟨t', r'⟩, hsplit, heq⟩
        simp at heq
        obtain ⟨rfl, rfl⟩ := heq
        obtain ⟨rfl, hmem⟩ := ih.mp hsplit
        refine ⟨by simp, ?_⟩
        simp only [List.mem_cons, not_or]
        exact ⟨fun h => hac h.symm, hmem⟩
      · rintro ⟨heq, hmem⟩
        cases t with
        | nil => simp at heq; exact absurd heq.1 hac
        | cons x t' =>
          simp at heq
          obtain ⟨rfl, heq'⟩ := heq
          simp at hmem
          exact ⟨(t', r), ih.mpr ⟨heq', hmem.2⟩, rfl⟩

theorem splitUntil_eq_none {c : Char} {l : Str} :
    splitUntil c l = none ↔ c ∉ l := by
  induction l with
  | nil => simp [splitUntil]
  | cons a l ih =>
    by_cases hac : a = c
    · subst hac; simp [splitUntil]
    · simp [splitUntil, if_neg hac, ih, Ne.symm hac, hac]

/-- Split a list at the first occurrence of a member character. -/
theorem exists_first_split {c : Char} {l : Str} (h : c ∈ l) :
    ∃ t r, l = t ++ c :: r ∧ c ∉ t := by
  cases hs : splitUntil c l with
  | none => exact absurd (splitUntil_eq_none.mp hs) (by simp [h])
  | some q => exact ⟨q.1, q.2, splitUntil_eq_some.mp hs⟩

theorem scanU_iff {file_name l : Str} :
    scanU file_name l = true ↔
      ∃ u₁ u₂ b, l = u₁ ++ file_name ++ u₂ ++ ')' :: b ∧ ')' ∉ u₁ ∧ ')' ∉ u₂ := by
  constructor
  · intro h
    induction l with
    | nil => simp [scanU] at h
    | cons a l ih =>
      rcases Bool.or_eq_true_iff.mp h with hpre | hrec
      · rcases Bool.and_eq_true_iff.mp hpre with ⟨hp, hc⟩
        obtain ⟨rest, hrest⟩ := List.isPrefixOf_iff_prefix.mp hp
        have hdrop : (a :: l).drop file_name.length = rest := by
          rw [← hrest]; exact List.drop_left file_name rest
        rw [hdrop] at hc
        have hmem : ')' ∈ rest := by simpa using hc
        obtain ⟨u₂, b, rfl, hu₂⟩ := exists_first_split hmem
        exact ⟨[], u₂, b, by simp [← hrest], by simp, hu₂⟩
      · rcases Bool.and_eq_true_iff.mp hrec with ⟨ha, hs⟩
        obtain ⟨u₁, u₂, b, rfl, hu₁, hu₂⟩ := ih hs
        refine ⟨a :: u₁, u₂, b, by simp, ?_, hu₂⟩
        simp only [List.mem_cons, not_or]
        exact ⟨fun hx => by simp at ha; exact ha hx.symm, hu₁⟩
  · rintro ⟨u₁, u₂, b, rfl, hu₁, hu₂⟩
    induction u₁ with
    | nil =>
      simp only [List.nil_append]
      cases hl : file_name ++ u₂ ++ ')' :: b with
      | nil => exact absurd hl (by simp)
      | cons a l' =>
        rw [scanU]
        apply Bool.or_eq_true_iff.mpr
        left
        apply Bool.and_eq_true_iff.mpr
        constructor
        · apply List.isPrefixOf_iff_prefix.mpr
          exact ⟨u₂ ++ ')' :: b, by rw [← hl]; simp⟩
        · have : (a :: l').drop file_name.length = u₂ ++ ')' :: b := by
            rw [← hl, List.append_assoc]
            exact List.drop_left file_name (u₂ ++ ')' :: b)
          rw [this]
          simp
    | cons x u₁' ih =>
      have hx : x ≠ ')' := by
        intro hx
        exact hu₁ (by simp [hx])
      have hmem : ')' ∉ u₁' := fun hm => hu₁ (by simp [hm])
      simp only [List.cons_append]
      rw [scanU]
      apply Bool.or_eq_true_iff.mpr
      right
      exact Bool.and_eq_true_iff.mpr ⟨by simp [hx], ih hmem⟩

theorem afterLB_iff {file_name l : Str} :
    afterLB file_name l = true ↔
      ∃ t u₁ u₂ b,
        l = t ++ ']' :: '(' :: (u₁ ++ file_name ++ u₂ ++ ')' :: b) ∧
        t ≠ [] ∧ ']' ∉ t ∧ ')' ∉ u₁ ∧ ')' ∉ u₂ := by
  constructor
  · intro h
    unfold afterLB at h
    cases hs : splitUntil ']' l with
    | none => rw [hs] at h; simp at h
    | some q =>
      rw [hs] at h
      rcases Bool.and_eq_true_iff.mp h with ⟨hne, hrest⟩
      obtain ⟨hl, hmem⟩ := splitUntil_eq_some.mp hs
      cases hr : q.2 with
      | nil => rw [hr] at hrest; simp at hrest
      | cons rc r' =>
        rw [hr] at hrest
        by_cases hrc : rc = '('
        · subst hrc
          simp only at hrest
          obtain ⟨u₁, u₂, b, hr', hu₁, hu₂⟩ := scanU_iff.mp hrest
          refine ⟨q.1, u₁, u₂, b, ?_, ?_, hmem, hu₁, hu₂⟩
          · rw [hl, hr, hr']
          · intro ht
            rw [ht] at hne
            simp at hne
        · exact absurd hrest (by cases hrc' : rc <;> simp_all)
  · rintro ⟨t, u₁, u₂, b, rfl, htne, htmem, hu₁, hu₂⟩
    unfold afterLB
    have hs : splitUntil ']' (t ++ ']' :: '(' :: (u₁ ++ file_name ++ u₂ ++ ')' :: b)) =
        some (t, '(' :: (u₁ ++ file_name ++ u₂ ++ ')' :: b)) :=
      splitUntil_eq_some.mpr ⟨rfl, htmem⟩
    rw [hs]
    apply Bool.and_eq_true_iff.mpr
    constructor
    · simpa using htne
    · exact scanU_iff.mpr ⟨u₁, u₂, b, rfl, hu₁, hu₂⟩

theorem mdScan_append_left {file_name l : Str} (h : mdScan file_name l = true) (a : Str) :
    mdScan file_name (a ++ l) = true := by
  induction a with
  | nil => simpa using h
  | cons y a' ih =>
    rw [List.cons_append, mdScan]
    exact Bool.or_eq_true_iff.mpr (Or.inr ih)

theorem mdScan_iff {file_name line : Str} :
    mdScan file_name line = true ↔ MdRegexMatch file_name line := by
  constructor
  · intro h
    induction line with
    | nil => simp [mdScan] at h
    | cons x line' ih =>
      rcases Bool.or_eq_true_iff.mp h with hhead | htail
      · rcases Bool.and_eq_true_iff.mp hhead with ⟨hx, hafter⟩
        have hx' : x = '[' := by simpa using hx
        obtain ⟨t, u₁, u₂, b, rfl, htne, htmem, hu₁, hu₂⟩ := afterLB_iff.mp hafter
        exact ⟨[], t, u₁, u₂, b, by simp [hx'], htne, htmem, hu₁, hu₂⟩
      · obtain ⟨a, t, u₁, u₂, b, heq, htne, htmem, hu₁, hu₂⟩ := ih htail
        exact ⟨x :: a, t, u₁, u₂, b, by simp [heq], htne, htmem, hu₁, hu₂⟩
  · rintro ⟨a, t, u₁, u₂, b, heq, htne, htmem, hu₁, hu₂⟩
    subst heq
    apply mdScan_append_left
    rw [mdScan]
    apply Bool.or_eq_true_iff.mpr
    left
    apply Bool.and_eq_true_iff.mpr
    exact ⟨by simp, afterLB_iff.mpr ⟨t, u₁, u₂, b, rfl, htne, htmem, hu₁, hu₂⟩⟩

/-- The spec's reading of the markdown pattern for claim C2, written from the
spec's words: the line contains a markdown link `[text](U)` whose target `U`
IS the target file's name. -/
def MdLinkExact (file_name line : Str) : Prop :=
  ∃ a t b,
    line = a ++ '[' :: (t ++ ']' :: '(' :: (file_name ++ ')' :: b)) ∧ t ≠ [] ∧ ']' ∉ t

/-- The amended reading: the line contains a markdown link `[text](U)` (text
non-empty and without `]`, target without `)`) whose target `U` CONTAINS the
target file's name as a substring. -/
def MdLinkContains (file_name line : Str) : Prop :=
  ∃ a t u b,
    line = a ++ '[' :: (t ++ ']' :: '(' :: (u ++ ')' :: b)) ∧
    t ≠ [] ∧ ']' ∉ t ∧ ')' ∉ u ∧ file_name <:+: u

theorem mdRegexMatch_iff_contains {file_name line : Str} (hfn : ')' ∉ file_name) :
    MdRegexMatch file_name line ↔ MdLinkContains file_name line := by
  constructor
  · rintro ⟨a, t, u₁, u₂, b, heq, htne, htmem, hu₁, hu₂⟩
    refine ⟨a, t, u₁ ++ file_name ++ u₂, b, ?_, htne, htmem, ?_, ?_⟩
    · rw [heq]
    · simp only [List.mem_append, not_or]
      exact ⟨⟨hu₁, hfn⟩, hu₂⟩
    · exact ⟨u₁, u₂, by simp⟩
  · rintro ⟨a, t, u, b, heq, htne, htmem, hu, hinf⟩
    obtain ⟨u₁, u₂, hu'⟩ := hinf
    subst hu'
    simp only [List.mem_append, not_or] at hu
    exact ⟨a, t, u₁, u₂, b, by rw [heq], htne, htmem, hu.1.1, hu.2⟩

/-- A line matching the exact spec pattern must contain `](file_name)` as a
substring (necessary condition, used to refute `MdLinkExact` on concrete
lines). -/
theorem mdLinkExact_necessary {file_name line : Str} (h : MdLinkExact file_name line) :
    (']' :: '(' :: (file_name ++ [')'])) <:+: line := by
  obtain ⟨a, t, b, rfl, -, -⟩ := h
  exact ⟨a ++ '[' :: t, b, by simp⟩

theorem mem_scanFileLines {has_wiki has_md : Str → Bool} {pp : ProjectPath} {ap : FsPath}
    {content : Str} {e : BacklinkEntry} (h : e ∈ scanFileLines has_wiki has_md pp ap content) :
    ∃ line, (rustLines content)[e.line_number]? = some line ∧
      (has_wiki line || has_md line) = true ∧
      e = ⟨pp, ap, (pathFileStem pp.path).getD [], pp.worktreeId, rustTrim line,
        e.line_number⟩ := by
  unfold scanFileLines at h
  rcases List.mem_filterMap.mp h with ⟨⟨n, line⟩, hmem, hq⟩
  by_cases hcond : (has_wiki line || has_md line) = true
  · rw [if_pos hcond] at hq
    have he := Option.some.inj hq
    refine ⟨line, ?_, hcond, ?_⟩
    · have hn : e.line_number = n := by rw [← he]
      rw [hn]
      exact List.mem_enum_iff_getElem?.mp hmem
    · rw [← he]
  · rw [if_neg hcond] at hq
    exact absurd hq (by simp)

theorem scanFileLines_mem_of {has_wiki has_md : Str → Bool} {pp : ProjectPath} {ap : FsPath}
    {content : Str} {n : Nat} {line : Str}
    (hline : (rustLines content)[n]? = some line)
    (hcond : (has_wiki line || has_md line) = true) :
    (⟨pp, ap, (pathFileStem pp.path).getD [], pp.worktreeId, rustTrim line, n⟩ :
        BacklinkEntry) ∈ scanFileLines has_wiki has_md pp ap content := by
  unfold scanFileLines
  apply List.mem_filterMap.mpr
  exact ⟨(n, line), List.mem_enum_iff_getElem?.mpr hline, by rw [if_pos hcond]⟩

theorem enum_pairwise_fst {α : Type _} {l : List α} :
    l.enum.Pairwise (fun a b => a.1 < b.1) := by
  have h1 : (l.enum.map Prod.fst).Pairwise (· < ·) := by
    rw [List.enum_map_fst]
    exact List.pairwise_lt_range l.length
  exact List.pairwise_map.mp h1

theorem scanFileLines_pairwise {has_wiki has_md : Str → Bool} {pp : ProjectPath}
    {ap : FsPath} {content : Str} :
    (scanFileLines has_wiki has_md pp ap content).Pairwise
      (fun e₁ e₂ => e₁.line_number < e₂.line_number) := by
  unfold scanFileLines
  refine List.Pairwise.filterMap _ ?_ enum_pairwise_fst
  intro a b hab x hx y hy
  by_cases hca : (has_wiki a.2 || has_md a.2) = true
  · rw [if_pos hca] at hx
    by_cases hcb : (has_wiki b.2 || has_md b.2) = true
    · rw [if_pos hcb] at hy
      have hx' := Option.mem_some_iff.mp hx
      have hy' := Option.mem_some_iff.mp hy
      rw [← hx', ← hy']
      exact hab
    · rw [if_neg hcb] at hy
      exact absurd hy (by simp)
  · rw [if_pos] at hx
    · by_cases hcb : (has_wiki b.2 || has_md b.2) = true
      · rw [if_pos hcb] at hy
        have hx' := Option.mem_some_iff.mp hx
        have hy' := Option.mem_some_iff.mp hy
        rw [← hx', ← hy']
        exact hab
      · rw [if_neg hcb] at hy
        exact absurd hy (by simp)
    · exact absurd hx (by rw [if_neg hca]; simp)

theorem mem_markdownFiles {worktrees : List Worktree} {tgt : FsPath}
    {pp : ProjectPath} {ap : FsPath} (h : (pp, ap) ∈ markdownFiles worktrees tgt) :
    ∃ wt ∈ worktrees, ∃ ent ∈ wt.entries, ent.is_file = true ∧
      pathExt ent.path = some "md".data ∧ pp = ⟨wt.wtId, ent.path⟩ ∧
      ap = wt.abs_path ++ ent.path ∧ ap ≠ tgt := by
  unfold markdownFiles at h
  rcases List.mem_flatMap.mp h with ⟨wt, hwt, hmem⟩
  rcases List.mem_filterMap.mp hmem with ⟨ent, hent, hq⟩
  refine ⟨wt, hwt, ent, hent, ?_⟩
  by_cases hf : ent.is_file = true
  · rw [if_pos hf] at hq
    cases hext : pathExt ent.path with
    | none => rw [hext] at hq; exact absurd hq (by simp)
    | some ext =>
      rw [hext] at hq
      simp only at hq
      by_cases hmd : ext = "md".data
      · rw [if_pos hmd] at hq
        by_cases habs : wt.abs_path ++ ent.path ≠ tgt
        · rw [if_pos habs] at hq
          have hpair := Option.some.inj hq
          injection hpair with hpp hap
          refine ⟨hf, ?_, hpp.symm, hap.symm, ?_⟩
          · rw [hmd]
          · rw [← hap]; exact habs
        · rw [if_neg habs] at hq
          exact absurd hq (by simp)
      · rw [if_neg hmd] at hq
        exact absurd hq (by simp)
  · rw [if_neg hf] at hq
    exact absurd hq (by simp)

theorem find_backlinks_eq {worktrees : List Worktree} {load : FsPath → Option Str}
    {target_path : ProjectPath} {target_abs_opt : Option FsPath}
    (hstem : (pathFileStem target_path.path).getD [] ≠ []) :
    find_backlinks worktrees load target_path target_abs_opt =
      Except.ok ((markdownFiles worktrees (target_abs_opt.getD target_path.path)).flatMap
        (loadChunk (hasWikiB ((pathFileStem target_path.path).getD []))
          (hasMdB target_path.path) load)) := by
  unfold find_backlinks
  rw [if_neg hstem]

/-- In a scan list with pairwise distinct absolute paths, the absolute path
determines the pair. -/
theorem snd_inj_of_pairwise {files : List (ProjectPath × FsPath)}
    (hnd : files.Pairwise (fun q₁ q₂ => q₁.2 ≠ q₂.2))
    {q₁ q₂ : ProjectPath × FsPath} (h₁ : q₁ ∈ files) (h₂ : q₂ ∈ files)
    (heq : q₁.2 = q₂.2) : q₁ = q₂ := by
  induction files with
  | nil => simp at h₁
  | cons f fs ih =>
    rcases List.pairwise_cons.mp hnd with ⟨hf, hfs⟩
    rcases List.mem_cons.mp h₁ with rfl | h₁'
    · rcases List.mem_cons.mp h₂ with rfl | h₂'
      · rfl
      · exact absurd heq (hf q₂ h₂')
    · rcases List.mem_cons.mp h₂ with rfl | h₂'
      · exact absurd heq.symm (hf q₁ h₁')
      · exact ih hfs h₁' h₂'

theorem pairwise_flatMap_of {α β : Type _} {R : β → β → Prop} {f : α → List β} {l : List α}
    (hin : ∀ a ∈ l, (f a).Pairwise R)
    (hcross : l.Pairwise (fun a b => ∀ x ∈ f a, ∀ y ∈ f b, R x y)) :
    (l.flatMap f).Pairwise R := by
  induction l with
  | nil => simp
  | cons a l ih =>
    rcases List.pairwise_cons.mp hcross with ⟨ha, hl⟩
    rw [List.flatMap_cons]
    apply List.pairwise_append.mpr
    refine ⟨hin a (by simp), ih (fun b hb => hin b (by simp [hb])) hl, ?_⟩
    intro x hx y hy
    rcases List.mem_flatMap.mp hy with ⟨b, hb, hyb⟩
    exact ha b hb x hx y hyb

theorem mem_loadChunk {has_wiki has_md : Str → Bool} {load : FsPath → Option Str}
    {q : ProjectPath × FsPath} {e : BacklinkEntry} :
    e ∈ loadChunk has_wiki has_md load q ↔
      ∃ content, load q.2 = some content ∧
        e ∈ scanFileLines has_wiki has_md q.1 q.2 content := by
  unfold loadChunk
  cases h : load q.2 with
  | none => simp
  | some c => simp

theorem loadChunk_abs {has_wiki has_md : Str → Bool} {load : FsPath → Option Str}
    {q : ProjectPath × FsPath} {e : BacklinkEntry} (h : e ∈ loadChunk has_wiki has_md load q) :
    e.path = q.1 ∧ e.abs_path = q.2 := by
  rcases mem_loadChunk.mp h with ⟨c, -, hscan⟩
  obtain ⟨line, -, -, herec⟩ := mem_scanFileLines hscan
  exact ⟨by rw [herec], by rw [herec]⟩

theorem loadChunk_pairwise {has_wiki has_md : Str → Bool} {load : FsPath → Option Str}
    {q : ProjectPath × FsPath} :
    (loadChunk has_wiki has_md load q).Pairwise
      (fun e₁ e₂ => e₁.line_number < e₂.line_number) := by
  unfold loadChunk
  cases load q.2 with
  | none => simp
  | some c => exact scanFileLines_pairwise

/-- The index, in the scanned-file list, of the file an entry's absolute path
points at (the first file with that absolute path). -/
def fileRank (files : List (ProjectPath × FsPath)) (e : BacklinkEntry) : Option Nat :=
  position (fun q => decide (q.2 = e.abs_path)) files

theorem fileRank_of_getElem {files : List (ProjectPath × FsPath)}
    (hnd : files.Pairwise (fun q₁ q₂ => q₁.2 ≠ q₂.2)) {i : Nat} (hi : i < files.length)
    {e : BacklinkEntry} (habs : e.abs_path = files[i].2) :
    fileRank files e = some i := by
  refine position_first (List.getElem?_eq_getElem hi) (by simp [habs]) ?_
  intro k hk b hb
  obtain ⟨hkl, rfl⟩ := List.getElem?_eq_some.mp hb
  have hne := List.pairwise_iff_getElem.mp hnd k i hkl hi hk
  simp only [decide_eq_false_iff_not]
  intro hc
  exact hne (by rw [hc, habs])

/-- A one-worktree project fixture with a single markdown file `b.md`. -/
def sampleWorktree : Worktree := ⟨0, [], [⟨["b.md".data], true⟩]⟩

/-- A loader fixture: `b.md` holds a wiki link and a markdown link to
`a.md`. -/
def sampleLoad : FsPath → Option Str :=
  fun p => if p = [("b.md".data : Str)] then some "see [[a]]\n[x](a.md)".data else none

/-- The entry `find_backlinks` produces for line 0 of `b.md` under
`sampleLoad`. -/
def sampleEntry0 : BacklinkEntry :=
  ⟨⟨0, ["b.md".data]⟩, ["b.md".data], "b".data, 0, "see [[a]]".data, 0⟩

/-- The entry `find_backlinks` produces for line 1 of `b.md` under
`sampleLoad`. -/
def sampleEntry1 : BacklinkEntry :=
  ⟨⟨0, ["b.md".data]⟩, ["b.md".data], "b".data, 0, "[x](a.md)".data, 1⟩

/-- C5.  Every returned entry comes from a file entry of a visible worktree,
is a file whose extension is exactly `md`, and its absolute path differs from
the target's absolute path. -/
theorem backlinks_scan_scope :
    ∀ (worktrees : List Worktree) (load : FsPath → Option Str) (target_path : ProjectPath)
      (target_abs_opt : Option FsPath) (l : List BacklinkEntry) (e : BacklinkEntry),
      find_backlinks worktrees load target_path target_abs_opt = Except.ok l →
      e ∈ l →
      pathExt e.path.path = some "md".data ∧
      e.abs_path ≠ target_abs_opt.getD target_path.path ∧
      ∃ wt ∈ worktrees, ∃ ent ∈ wt.entries, ent.is_file = true ∧
        e.path = ⟨wt.wtId, ent.path⟩ ∧ e.abs_path = wt.abs_path ++ ent.path := by
  intro worktrees load target_path target_abs_opt l e hok hmem
  by_cases hstem : (pathFileStem target_path.path).getD [] = []
  · unfold find_backlinks at hok
    rw [if_pos hstem] at hok
    have hl : ([] : List BacklinkEntry) = l := Except.ok.inj hok
    rw [← hl] at hmem
    simp at hmem
  · rw [find_backlinks_eq hstem] at hok
    have hl := Except.ok.inj hok
    rw [← hl] at hmem
    rcases List.mem_flatMap.mp hmem with ⟨q, hq, he⟩
    obtain ⟨hpath, habs⟩ := loadChunk_abs he
    have hq' : (q.1, q.2) ∈ markdownFiles worktrees (target_abs_opt.getD target_path.path) := by
      rw [Prod.mk.eta]
      exact hq
    obtain ⟨wt, hwt, ent, hent, hfile, hext, hpp, hap, hne⟩ := mem_markdownFiles hq'
    refine ⟨?_, ?_, wt, hwt, ent, hent, hfile, ?_, ?_⟩
    · rw [hpath, hpp]
      exact hext
    · rw [habs]
      exact hne
    · rw [hpath, hpp]
    · rw [habs, hap]

/-- C5, witness: the concrete entry produced for `b.md` satisfies the scope
properties. -/
theorem backlinks_scan_scope_witness :
    pathExt sampleEntry0.path.path = some "md".data ∧
    sampleEntry0.abs_path ≠ (some (["a.md".data] : FsPath)).getD samplePathA.path ∧
    ∃ wt ∈ [sampleWorktree], ∃ ent ∈ wt.entries, ent.is_file = true ∧
      sampleEntry0.path = ⟨wt.wtId, ent.path⟩ ∧
      sampleEntry0.abs_path = wt.abs_path ++ ent.path :=
  backlinks_scan_scope [sampleWorktree] sampleLoad samplePathA (some ["a.md".data])
    [sampleEntry0, sampleEntry1] sampleEntry0 (by rfl) (by simp)

/-- C7.  Each entry's `line_number` is the 0-based index of a line of the
loaded file and its `context` is that line trimmed; and (for scan lists whose
absolute paths are pairwise distinct, which any on-disk worktree satisfies)
the returned list is ordered: entries of earlier-scanned files come first
(`fileRank` is monotone along the list) and entries of the same file appear
in strictly increasing line order. -/
theorem backlinks_order_spec :
    ∀ (worktrees : List Worktree) (load : FsPath → Option Str) (target_path : ProjectPath)
      (target_abs_opt : Option FsPath) (l : List BacklinkEntry),
      find_backlinks worktrees load target_path target_abs_opt = Except.ok l →
      (∀ e ∈ l, ∃ content line,
        load e.abs_path = some content ∧
        (rustLines content)[e.line_number]? = some line ∧
        e.context = rustTrim line) ∧
      ((markdownFiles worktrees (target_abs_opt.getD target_path.path)).Pairwise
          (fun q₁ q₂ => q₁.2 ≠ q₂.2) →
        l.Pairwise (fun e₁ e₂ =>
          (∀ i j,
            fileRank (markdownFiles worktrees (target_abs_opt.getD target_path.path)) e₁ =
              some i →
            fileRank (markdownFiles worktrees (target_abs_opt.getD target_path.path)) e₂ =
              some j →
            i ≤ j) ∧
          (e₁.abs_path = e₂.abs_path → e₁.line_number < e₂.line_number))) := by
  intro worktrees load target_path target_abs_opt l hok
  by_cases hstem : (pathFileStem target_path.path).getD [] = []
  · unfold find_backlinks at hok
    rw [if_pos hstem] at hok
    have hl : ([] : List BacklinkEntry) = l := Except.ok.inj hok
    constructor
    · intro e hmem
      rw [← hl] at hmem
      simp at hmem
    · intro _
      rw [← hl]
      exact List.Pairwise.nil
  · rw [find_backlinks_eq hstem] at hok
    have hl := Except.ok.inj hok
    constructor
    · intro e hmem
      rw [← hl] at hmem
      rcases List.mem_flatMap.mp hmem with ⟨q, hq, he⟩
      obtain ⟨hpath, habs⟩ := loadChunk_abs he
      rcases mem_loadChunk.mp he with ⟨content, hload, hscan⟩
      obtain ⟨line, hline, hcond, herec⟩ := mem_scanFileLines hscan
      refine ⟨content, line, ?_, hline, ?_⟩
      · rw [habs]
        exact hload
      · rw [herec]
    · intro hnd
      rw [← hl]
      apply pairwise_flatMap_of
      · intro q hq
        refine List.Pairwise.imp_of_mem ?_ loadChunk_pairwise
        intro e₁ e₂ h₁ h₂ hlt
        obtain ⟨-, habs₁⟩ := loadChunk_abs h₁
        obtain ⟨-, habs₂⟩ := loadChunk_abs h₂
        constructor
        · intro i j hi hj
          have hsame : fileRank (markdownFiles worktrees
              (target_abs_opt.getD target_path.path)) e₁ =
              fileRank (markdownFiles worktrees (target_abs_opt.getD target_path.path)) e₂ := by
            unfold fileRank
            rw [habs₁, habs₂]
          rw [hsame, hj] at hi
          have := Option.some.inj hi
          omega
        · intro _
          exact hlt
      · apply List.pairwise_iff_getElem.mpr
        intro i j hi hj hij
        intro x hx y hy
        obtain ⟨-, habsx⟩ := loadChunk_abs hx
        obtain ⟨-, habsy⟩ := loadChunk_abs hy
        constructor
        · intro i' j' hi' hj'
          have hri := fileRank_of_getElem hnd hi habsx
          have hrj := fileRank_of_getElem hnd hj habsy
          rw [hri] at hi'
          rw [hrj] at hj'
          have h1 := Option.some.inj hi'
          have h2 := Option.some.inj hj'
          omega
        · intro hxy
          have hne := List.pairwise_iff_getElem.mp hnd i j hi hj hij
          exact absurd (by rw [← habsx, hxy, habsy]) hne

/-- C7, witness: the two entries produced for `b.md` come out ordered. -/
theorem backlinks_order_spec_witness :
    [sampleEntry0, sampleEntry1].Pairwise (fun e₁ e₂ =>
      (∀ i j,
        fileRank (markdownFiles [sampleWorktree]
          ((some (["a.md".data] : FsPath)).getD samplePathA.path)) e₁ = some i →
        fileRank (markdownFiles [sampleWorktree]
          ((some (["a.md".data] : FsPath)).getD samplePathA.path)) e₂ = some j →
        i ≤ j) ∧
      (e₁.abs_path = e₂.abs_path → e₁.line_number < e₂.line_number)) :=
  (backlinks_order_spec [sampleWorktree] sampleLoad samplePathA (some ["a.md".data])
    [sampleEntry0, sampleEntry1] (by rfl)).2 (by decide)

/-- C2, amended.  For a scanned markdown file and a line of it,
`find_backlinks` reports that line exactly when the line contains the wiki
pattern `[[stem]]` or a markdown link `[text](U)` whose target `U` CONTAINS
the target's file name as a substring (not: equals the file name).  Stated
for scan lists with pairwise distinct absolute paths and a target file name
without `')'`. -/
theorem backlinks_reports_line_iff :
    ∀ (worktrees : List Worktree) (load : FsPath → Option Str) (target_path : ProjectPath)
      (target_abs_opt : Option FsPath) (l : List BacklinkEntry)
      (pp : ProjectPath) (ap : FsPath) (content : Str) (k : Nat) (line : Str)
      (file_name : Str),
      find_backlinks worktrees load target_path target_abs_opt = Except.ok l →
      (markdownFiles worktrees (target_abs_opt.getD target_path.path)).Pairwise
        (fun q₁ q₂ => q₁.2 ≠ q₂.2) →
      (pp, ap) ∈ markdownFiles worktrees (target_abs_opt.getD target_path.path) →
      load ap = some content →
      (rustLines content)[k]? = some line →
      pathFileName target_path.path = some file_name →
      stemOfName file_name ≠ [] →
      ')' ∉ file_name →
      ((∃ e ∈ l, e.abs_path = ap ∧ e.line_number = k) ↔
        (wikiLinkPattern (stemOfName file_name) <:+: line ∨
          MdLinkContains file_name line)) := by
  intro worktrees load target_path target_abs_opt l pp ap content k line file_name
    hok hnd hfmem hload hline hfn hstemne hfnp
  have hstem : (pathFileStem target_path.path).getD [] = stemOfName file_name := by
    simp [pathFileStem, hfn]
  have hstem' : (pathFileStem target_path.path).getD [] ≠ [] := by
    rw [hstem]
    exact hstemne
  rw [find_backlinks_eq hstem'] at hok
  have hl := Except.ok.inj hok
  constructor
  · rintro ⟨e, hmem, habs, hln⟩
    rw [← hl] at hmem
    rcases List.mem_flatMap.mp hmem with ⟨q, hq, he⟩
    obtain ⟨hepath, heabs⟩ := loadChunk_abs he
    have hq2 : q.2 = (pp, ap).2 := by
      rw [← heabs, habs]
    have hqeq : q = (pp, ap) := snd_inj_of_pairwise hnd hq hfmem hq2
    rcases mem_loadChunk.mp he with ⟨content', hload', hscan⟩
    have hcontent : content' = content := by
      rw [hqeq] at hload'
      rw [hload] at hload'
      exact (Option.some.inj hload').symm
    obtain ⟨line', hline', hcond, herec⟩ := mem_scanFileLines hscan
    rw [hcontent, hln, hline] at hline'
    have hlineeq : line' = line := (Option.some.inj hline').symm
    rw [hlineeq] at hcond
    rcases Bool.or_eq_true_iff.mp hcond with hw | hm
    · left
      unfold hasWikiB at hw
      rw [hstem] at hw
      exact of_decide_eq_true hw
    · right
      unfold hasMdB at hm
      simp only [hfn] at hm
      exact (mdRegexMatch_iff_contains hfnp).mp (mdScan_iff.mp hm)
  · intro hcond
    have hcondB : (hasWikiB ((pathFileStem target_path.path).getD []) line ||
        hasMdB target_path.path line) = true := by
      rcases hcond with hw | hm
      · apply Bool.or_eq_true_iff.mpr
        left
        unfold hasWikiB
        rw [hstem]
        exact decide_eq_true hw
      · apply Bool.or_eq_true_iff.mpr
        right
        unfold hasMdB
        simp only [hfn]
        exact mdScan_iff.mpr ((mdRegexMatch_iff_contains hfnp).mpr hm)
    refine ⟨⟨pp, ap, (pathFileStem pp.path).getD [], pp.worktreeId, rustTrim line, k⟩,
      ?_, rfl, rfl⟩
    rw [← hl]
    apply List.mem_flatMap.mpr
    refine ⟨(pp, ap), hfmem, ?_⟩
    apply mem_loadChunk.mpr
    exact ⟨content, hload, scanFileLines_mem_of hline hcondB⟩

/-- C2, witness for the amended theorem: line 1 of `b.md` is reported, and
indeed holds a markdown link whose target contains `a.md`. -/
theorem backlinks_reports_line_iff_witness :
    (∃ e ∈ [sampleEntry0, sampleEntry1],
        e.abs_path = (["b.md".data] : FsPath) ∧ e.line_number = 1) ↔
      (wikiLinkPattern (stemOfName "a.md".data) <:+: "[x](a.md)".data ∨
        MdLinkContains "a.md".data "[x](a.md)".data) :=
  backlinks_reports_line_iff [sampleWorktree] sampleLoad samplePathA
    (some ["a.md".data]) [sampleEntry0, sampleEntry1] ⟨0, ["b.md".data]⟩ ["b.md".data]
    "see [[a]]\n[x](a.md)".data 1 "[x](a.md)".data "a.md".data
    (by rfl) (by decide) (by decide) (by decide) (by decide) (by decide) (by decide)
    (by decide)

/-- A loader fixture for the C2 counterexample: `b.md` holds a markdown link
whose target `ba.md` merely CONTAINS the name `a.md`. -/
def mdOnlyLoad : FsPath → Option Str :=
  fun p => if p = [("b.md".data : Str)] then some "[t](ba.md)".data else none

/-- C2, counterexample.  `find_backlinks` reports line 0 of `b.md` as a
backlink to `a.md`, yet that line neither contains `[[a]]` nor any markdown
link whose target IS `a.md` (its only link targets `ba.md`): the markdown
regex `\[([^\]]+)\]\([^)]*a\.md[^)]*\)` tests substring containment of the
file name, not equality. -/
theorem backlinks_md_substring_counterexample :
    (∃ l, find_backlinks [sampleWorktree] mdOnlyLoad samplePathA (some ["a.md".data]) =
        Except.ok l ∧
      ∃ e ∈ l, e.abs_path = (["b.md".data] : FsPath) ∧ e.line_number = 0) ∧
    (rustLines "[t](ba.md)".data)[0]? = some "[t](ba.md)".data ∧
    ¬ (wikiLinkPattern (stemOfName "a.md".data) <:+: "[t](ba.md)".data ∨
        MdLinkExact "a.md".data "[t](ba.md)".data) := by
  refine ⟨⟨_, rfl, by decide⟩, by decide, ?_⟩
  rintro (hwiki | hexact)
  · exact absurd hwiki (by decide)
  · exact absurd (mdLinkExact_necessary hexact) (by decide)

theorem flatMap_loadChunk_filter {has_wiki has_md : Str → Bool}
    {load load₂ : FsPath → Option Str} {f : FsPath}
    (h₂ : ∀ q, q ≠ f → load₂ q = load q) (hf : load₂ f = none)
    (files : List (ProjectPath × FsPath)) :
    files.flatMap (loadChunk has_wiki has_md load₂) =
      (files.flatMap (loadChunk has_wiki has_md load)).filter
        (fun e => decide (e.abs_path ≠ f)) := by
  induction files with
  | nil => simp
  | cons q fs ih =>
    rw [List.flatMap_cons, List.flatMap_cons, List.filter_append, ih]
    congr 1
    by_cases hq : q.2 = f
    · have hchunk₂ : loadChunk has_wiki has_md load₂ q = [] := by
        unfold loadChunk
        rw [hq, hf]
      rw [hchunk₂]
      symm
      apply List.filter_eq_nil_iff.mpr
      intro e he
      obtain ⟨-, habs⟩ := loadChunk_abs he
      simp [habs, hq]
    · have hchunk₂ : loadChunk has_wiki has_md load₂ q =
          loadChunk has_wiki has_md load q := by
        unfold loadChunk
        rw [h₂ q.2 hq]
      rw [hchunk₂]
      symm
      apply List.filter_eq_self.mpr
      intro e he
      obtain ⟨-, habs⟩ := loadChunk_abs he
      simp [habs, hq]

/-- C10.  Load failures are swallowed: every returned entry comes from a
file whose contents loaded; `find_backlinks` always returns `Ok`; an empty
target file stem yields `Ok []`; and making one file's load fail turns the
result into exactly the previous result with that file's entries removed
(no other entries are dropped, and no error is returned). -/
theorem backlinks_error_handling :
    (∀ (worktrees : List Worktree) (load : FsPath → Option Str) (target_path : ProjectPath)
      (target_abs_opt : Option FsPath) (l : List BacklinkEntry) (e : BacklinkEntry),
      find_backlinks worktrees load target_path target_abs_opt = Except.ok l →
      e ∈ l → ∃ content, load e.abs_path = some content) ∧
    (∀ (worktrees : List Worktree) (load : FsPath → Option Str) (target_path : ProjectPath)
      (target_abs_opt : Option FsPath),
      ∃ l, find_backlinks worktrees load target_path target_abs_opt = Except.ok l) ∧
    (∀ (worktrees : List Worktree) (load : FsPath → Option Str) (target_path : ProjectPath)
      (target_abs_opt : Option FsPath),
      (pathFileStem target_path.path).getD [] = [] →
      find_backlinks worktrees load target_path target_abs_opt = Except.ok []) ∧
    (∀ (worktrees : List Worktree) (load load₂ : FsPath → Option Str)
      (target_path : ProjectPath) (target_abs_opt : Option FsPath) (f : FsPath)
      (l : List BacklinkEntry),
      (∀ q, q ≠ f → load₂ q = load q) →
      load₂ f = none →
      find_backlinks worktrees load target_path target_abs_opt = Except.ok l →
      find_backlinks worktrees load₂ target_path target_abs_opt =
        Except.ok (l.filter (fun e => decide (e.abs_path ≠ f)))) := by
  refine ⟨?_, ?_, ?_, ?_⟩
  · intro worktrees load target_path target_abs_opt l e hok hmem
    by_cases hstem : (pathFileStem target_path.path).getD [] = []
    · unfold find_backlinks at hok
      rw [if_pos hstem] at hok
      have hl : ([] : List BacklinkEntry) = l := Except.ok.inj hok
      rw [← hl] at hmem
      simp at hmem
    · rw [find_backlinks_eq hstem] at hok
      have hl := Except.ok.inj hok
      rw [← hl] at hmem
      rcases List.mem_flatMap.mp hmem with ⟨q, hq, he⟩
      obtain ⟨-, habs⟩ := loadChunk_abs he
      rcases mem_loadChunk.mp he with ⟨content, hload, -⟩
      exact ⟨content, by rw [habs]; exact hload⟩
  · intro worktrees load target_path target_abs_opt
    by_cases hstem : (pathFileStem target_path.path).getD [] = []
    · refine ⟨[], ?_⟩
      unfold find_backlinks
      rw [if_pos hstem]
    · exact ⟨_, find_backlinks_eq hstem⟩
  · intro worktrees load target_path target_abs_opt hstem
    unfold find_backlinks
    rw [if_pos hstem]
  · intro worktrees load load₂ target_path target_abs_opt f l h₂ hf hok
    by_cases hstem : (pathFileStem target_path.path).getD [] = []
    · unfold find_backlinks at hok ⊢
      rw [if_pos hstem] at hok ⊢
      have hl : ([] : List BacklinkEntry) = l := Except.ok.inj hok
      rw [← hl]
      rfl
    · rw [find_backlinks_eq hstem] at hok ⊢
      have hl := Except.ok.inj hok
      rw [flatMap_loadChunk_filter h₂ hf, hl]

/-- C10, witness: with a path that has no file name (hence an empty stem),
`find_backlinks` returns `Ok []`. -/
theorem backlinks_error_handling_witness :
    find_backlinks [sampleWorktree] sampleLoad ⟨0, []⟩ none = Except.ok [] :=
  backlinks_error_handling.2.2.1 [sampleWorktree] sampleLoad ⟨0, []⟩ none (by decide)

/-- A panel state with stale entries and no current file, as left behind by a
scan task that completed after the current file was cleared. -/
def stalePanel : PanelState := ⟨[sampleEntry0], none, none⟩

/-- C8, counterexample.  Calling `update_backlinks` with `None` when
`current_file_path` is already `None` hits the early return and does NOT
clear the entries. -/
theorem update_backlinks_none_counterexample :
    update_backlinks stalePanel none = stalePanel ∧ stalePanel.entries ≠ [] :=
  ⟨rfl, by decide⟩

/-- C8, amended.  Calling `update_backlinks` with a file path equal to the
current one leaves the panel unchanged; calling it with `None` when the
current file path is not `None` clears the entries and sets the current file
path to `None` (when it is already `None` the call is the no-op covered by
the first part). -/
theorem update_backlinks_frame_amended :
    (∀ (s : PanelState), update_backlinks s s.current_file_path = s) ∧
    (∀ (s : PanelState), s.current_file_path ≠ none →
      update_backlinks s none = { s with entries := [], current_file_path := none }) := by
  constructor
  · intro s
    unfold update_backlinks
    rw [if_pos rfl]
  · intro s h
    unfold update_backlinks
    rw [if_neg h]

/-- C8, witness: clearing a concrete panel that currently shows `a.md`. -/
theorem update_backlinks_frame_amended_witness :
    update_backlinks ⟨[sampleEntry0], some samplePathA, none⟩ none =
      { entries := [], current_file_path := none, pending_update := none } :=
  update_backlinks_frame_amended.2 ⟨[sampleEntry0], some samplePathA, none⟩ (by decide)
